import Mathlib

/-!
Verification of the geospatial clustering / polygon pipeline of the
usGuri_Dufutti backend (src/utils/poligon.py, src/utils/convertData.py,
src/routes/endpoints/areas.py) against its natural-language specification.

Coordinates are modelled as rational pairs; the scipy `ConvexHull` call is
abstracted as an oracle returning either a vertex list or a `QhullError`.
-/

/-- A latitude/longitude pair, as the `(lat, lon)` tuples of the source. -/
abbrev Point := ℚ × ℚ

/-- Result type of the abstracted scipy `ConvexHull` call: either the hull
vertex list (in Qhull traversal order) or a `QhullError`. -/
abbrev HullOracle := List Point → Except Unit (List Point)

/-- Embeds `generate_polygon` from src/utils/poligon.py.

Python deduplicates via `list(set(points))` (iteration order of a Python set
is unspecified); we model the deduplicated list by `List.dedup`.  The scipy
`ConvexHull` construction is abstracted as the `hull` oracle.  The Boolean in
the result records whether `warnings.warn` fired.  `site_point` is `None` or a
coordinate pair, so the Python truthiness test `if site_point` is `isSome`. -/
def generate_polygon (hull : HullOracle) (points : List Point)
    (site_point : Option Point) : List Point × Bool :=
  let pts := points.dedup
  if pts.length < 3 then
    (match site_point with
     | some sp => [sp]
     | none => pts,
     false)
  else
    match hull pts with
    | Except.ok vs => (vs, false)
    | Except.error _ => (match site_point with
       | some sp => [sp]
       | none => pts,
       true)

/-- A hull oracle that always fails with a `QhullError`, exercising the
degenerate / exception paths. -/
def hullFail : HullOracle := fun _ => Except.error ()

/-- C2 counterexample: with one distinct input point and a supplied
`site_point`, `generate_polygon` returns the anchor point `[(0, 0)]`, not the
distinct input points `[(1, 2)]` — the anchor is used whenever it is supplied,
not only when no distinct points exist. -/
theorem C2_counterexample :
    (generate_polygon hullFail [(1, 2)] (some (0, 0))).1 = [(0, 0)] ∧
    ((1 : ℚ), (2 : ℚ)) ∉ (generate_polygon hullFail [(1, 2)] (some (0, 0))).1 := by
  decide

/-- C2 (amended): with fewer than 3 distinct points, `generate_polygon`
returns `[site_point]` whenever a `site_point` is supplied (regardless of how
many distinct points exist), and the distinct input points otherwise; no hull
computation is attempted (the result does not depend on the hull oracle). -/
theorem C2_low_point_fallback (hull : HullOracle) (points : List Point)
    (sp : Option Point) (h : points.dedup.length < 3) :
    (generate_polygon hull points sp).1 =
      (match sp with | some p => [p] | none => points.dedup) ∧
    generate_polygon hull points sp = generate_polygon hullFail points sp := by
  constructor
  · simp [generate_polygon, h]
  · simp [generate_polygon, h]

/-- C2 witness: concrete run of the amended fallback behaviour on a
duplicated single point with no anchor supplied. -/
theorem C2_witness :
    (generate_polygon hullFail [((3 : ℚ), (4 : ℚ)), (3, 4)] none).1 =
      [((3 : ℚ), (4 : ℚ))] := by
  have h := C2_low_point_fallback hullFail [((3 : ℚ), (4 : ℚ)), (3, 4)] none
    (by decide)
  rw [h.1]
  decide

/-- C3: when at least 3 distinct points remain and the hull computation fails
(`QhullError`, e.g. collinear points), `generate_polygon` returns normally (it
is a total function: the exception is caught), produces the degenerate-case
fallback (anchor point if supplied, otherwise the distinct points) and sets
the warning flag. -/
theorem C3_hull_failure (hull : HullOracle) (points : List Point)
    (sp : Option Point) (h3 : ¬ points.dedup.length < 3)
    (hf : hull points.dedup = Except.error ()) :
    generate_polygon hull points sp =
      ((match sp with | some p => [p] | none => points.dedup), true) := by
  simp [generate_polygon, h3, hf]

/-- C3 witness: three distinct collinear points, failing hull, no anchor:
the distinct points come back together with the warning flag. -/
theorem C3_witness :
    generate_polygon hullFail [((0 : ℚ), (0 : ℚ)), (1, 0), (2, 0)] none =
      ([((0 : ℚ), (0 : ℚ)), (1, 0), (2, 0)], true) := by
  have h := C3_hull_failure hullFail [((0 : ℚ), (0 : ℚ)), (1, 0), (2, 0)] none
    (by decide) rfl
  rw [h]
  decide

/-- One row of the `area_coordinates` table (src/models/area.py):
`area_id`, `latitude`, `longitude`, `order` (an SQL `Integer`). -/
structure AreaCoordRow where
  area_id : Nat
  latitude : ℚ
  longitude : ℚ
  order : Int
deriving DecidableEq

/-- The committed database state relevant to area materialization:
the `areas` rows (ids), the `area_coordinates` rows, and the committed
`plant.area_id` assignments as `(plant_id, area_id)` pairs. -/
structure DBState where
  areas : List Nat
  coords : List AreaCoordRow
  plant_area : List (Nat × Nat)
deriving DecidableEq

/-- The empty database. -/
def dbEmpty : DBState := ⟨[], [], []⟩

/-- The AreaCoordinate rows built by
`for i, (lat, lon) in enumerate(polygon_coords)` in src/utils/convertData.py:
one row per vertex, `order` = index in the generator's output sequence. -/
def enumCoords (aid : Nat) (poly : List Point) : List AreaCoordRow :=
  poly.enum.map (fun ip => ⟨aid, ip.2.1, ip.2.2, Int.ofNat ip.1⟩)

/-- First `session.commit()` of the loop body: the new Area row. -/
def commitArea (s : DBState) (aid : Nat) : DBState :=
  ⟨s.areas ++ [aid], s.coords, s.plant_area⟩

/-- Second `session.commit()`: the AreaCoordinate rows for the polygon. -/
def commitCoords (s : DBState) (aid : Nat) (poly : List Point) : DBState :=
  ⟨s.areas, s.coords ++ enumCoords aid poly, s.plant_area⟩

/-- Third `session.commit()`: the bulk update setting `area_id` on the
group's plants. -/
def commitPlants (s : DBState) (aid : Nat) (plant_ids : List Nat) : DBState :=
  ⟨s.areas, s.coords, s.plant_area ++ plant_ids.map (fun p => (p, aid))⟩

/-- The `polygon_coords` chosen by the site clustering loop of
src/utils/convertData.py: the raw points when the group has fewer than 3 of
them, otherwise `generate_polygon(points)` (no site_point supplied). -/
def driverPoly (hull : HullOracle) (points : List Point) : List Point :=
  if points.length < 3 then points
  else (generate_polygon hull points none).1

/-- The committed state after the loop body for one site-group ran to
completion (all three commits; unchanged when the `if polygon_coords:` skip
branch was taken). -/
def finalState (hull : HullOracle) (s : DBState) (aid : Nat)
    (points : List Point) (plant_ids : List Nat) : DBState :=
  let poly := driverPoly hull points
  if poly = [] then s
  else commitPlants (commitCoords (commitArea s aid) aid poly) aid plant_ids

/-- All committed database states reachable while the loop body of
src/utils/convertData.py materializes one site-group.  The body issues three
separate `session.commit()` calls (Area row; AreaCoordinate rows; Plant
update), so a crash between two commits leaves the most recently committed
state behind. -/
def processGroupStates (hull : HullOracle) (s : DBState) (aid : Nat)
    (points : List Point) (plant_ids : List Nat) : List DBState :=
  let poly := driverPoly hull points
  if poly = [] then [s]
  else
    [s, commitArea s aid,
     commitCoords (commitArea s aid) aid poly,
     commitPlants (commitCoords (commitArea s aid) aid poly) aid plant_ids]

/-- A committed state with no orphan AreaCoordinates (every coordinate row
references an existing Area) and no Plant assignment referencing a
nonexistent Area. -/
def wellFormed (s : DBState) : Prop :=
  (∀ c ∈ s.coords, c.area_id ∈ s.areas) ∧ ∀ pa ∈ s.plant_area, pa.2 ∈ s.areas

/-- C4 counterexample: materializing the two-point group `[(0,0), (0,1)]`
with plants `[10, 11]` from an empty database, the state after the first
commit — an Area row `1` with no AreaCoordinates and no reassigned plants —
is a reachable committed state that is neither the initial state nor the
final state: the three steps do not commit as a single transaction, and a
failure between the first and second commit leaves a partial Area. -/
theorem C4_counterexample :
    commitArea dbEmpty 1 ∈
      processGroupStates hullFail dbEmpty 1 [(0, 0), (0, 1)] [10, 11] ∧
    commitArea dbEmpty 1 ≠ dbEmpty ∧
    commitArea dbEmpty 1 ≠ finalState hullFail dbEmpty 1 [(0, 0), (0, 1)] [10, 11] ∧
    (commitArea dbEmpty 1).areas = [1] ∧
    (commitArea dbEmpty 1).coords = [] ∧
    (commitArea dbEmpty 1).plant_area = [] := by
  decide

/-- C4 (amended): the loop body issues three separate commits per site-group,
so a failure between commits can leave a partially materialized Area (an Area
row without its AreaCoordinates, or without its plants reassigned).  What
does hold: starting from a state with no orphan rows, every reachable
committed state still has no orphan AreaCoordinate and no plant assignment
referencing a nonexistent Area. -/
theorem C4_no_orphans (hull : HullOracle) (s : DBState) (aid : Nat)
    (points : List Point) (plant_ids : List Nat) (hwf : wellFormed s) :
    ∀ t ∈ processGroupStates hull s aid points plant_ids, wellFormed t := by
  intro t ht
  obtain ⟨hc, hp⟩ := hwf
  unfold processGroupStates at ht
  by_cases hpoly : driverPoly hull points = []
  · simp [hpoly] at ht
    subst ht
    exact ⟨hc, hp⟩
  · simp [hpoly] at ht
    have harea : ∀ a ∈ s.areas, a ∈ s.areas ++ [aid] := by
      intro a ha; exact List.mem_append_left _ ha
    rcases ht with ht | ht | ht | ht <;> subst ht
    · exact ⟨hc, hp⟩
    · exact ⟨fun c hcm => harea _ (hc c hcm), fun pa hpm => harea _ (hp pa hpm)⟩
    · refine ⟨fun c hcm => ?_, fun pa hpm => harea _ (hp pa hpm)⟩
      rcases List.mem_append.mp hcm with hcm | hcm
      · exact harea _ (hc c hcm)
      · have : c.area_id = aid := by
          unfold enumCoords at hcm
          obtain ⟨ip, _, hip⟩ := List.mem_map.mp hcm
          rw [← hip]
        rw [this]
        exact List.mem_append_right _ (List.mem_singleton.mpr rfl)
    · refine ⟨fun c hcm => ?_, fun pa hpm => ?_⟩
      · rcases List.mem_append.mp hcm with hcm | hcm
        · exact harea _ (hc c hcm)
        · have : c.area_id = aid := by
            unfold enumCoords at hcm
            obtain ⟨ip, _, hip⟩ := List.mem_map.mp hcm
            rw [← hip]
          rw [this]
          exact List.mem_append_right _ (List.mem_singleton.mpr rfl)
      · rcases List.mem_append.mp hpm with hpm | hpm
        · exact harea _ (hp pa hpm)
        · have : pa.2 = aid := by
            obtain ⟨p, _, hip⟩ := List.mem_map.mp hpm
            rw [← hip]
          rw [this]
          exact List.mem_append_right _ (List.mem_singleton.mpr rfl)

/-- C4 witness: the partial state after the first commit of a concrete run
contains no orphan rows. -/
theorem C4_witness : wellFormed (commitArea dbEmpty 1) :=
  C4_no_orphans hullFail dbEmpty 1 [(0, 0), (0, 1)] [10, 11]
    (by constructor <;> simp [dbEmpty])
    (commitArea dbEmpty 1) (by decide)

/-- One element of the `coordinates` array of the `AreaCreate` request body
(src/schemas/area.py, `AreaCoordinateBase`): latitude, longitude and a
client-supplied `order`. -/
structure CoordInput where
  latitude : ℚ
  longitude : ℚ
  order : Int
deriving DecidableEq

/-- Embeds `create_area` from src/routes/endpoints/areas.py: create the Area
row (flush to obtain its id), insert one AreaCoordinate per request
coordinate with the client-supplied `order` value, then commit once. -/
def create_area (s : DBState) (aid : Nat) (coordinates : List CoordInput) :
    DBState :=
  ⟨s.areas ++ [aid],
   s.coords ++ coordinates.map (fun cd => ⟨aid, cd.latitude, cd.longitude, cd.order⟩),
   s.plant_area⟩

/-- The `order` values of the AreaCoordinate rows of one Area, in row order. -/
def ordersOf (s : DBState) (aid : Nat) : List Int :=
  (s.coords.filter (fun c => c.area_id == aid)).map (fun c => c.order)

/-- A contiguous, gap-free sequence starting at 0. -/
def contiguousFromZero (l : List Int) : Prop :=
  l = (List.range l.length).map Int.ofNat

/-- C5 counterexample: the create-area write API persists the client-supplied
`order` values verbatim; a request whose single coordinate carries
`order = 5` produces an Area whose order sequence is `[5]`, which is not a
contiguous sequence starting at 0. -/
theorem C5_counterexample :
    ¬ contiguousFromZero (ordersOf (create_area dbEmpty 1 [⟨0, 0, 5⟩]) 1) ∧
    ordersOf (create_area dbEmpty 1 [⟨0, 0, 5⟩]) 1 = [5] := by
  constructor
  · intro h
    unfold contiguousFromZero at h
    have h5 : ordersOf (create_area dbEmpty 1 [⟨0, 0, 5⟩]) 1 = [5] := by decide
    rw [h5] at h
    exact absurd h (by decide)
  · decide

/-- C5 (amended): for areas created by the clustering driver, the `order`
values form the contiguous sequence `0, 1, …` matching the polygon
generator's output order (`order` = index in the generator's returned
sequence); the create-area write API instead stores the client-supplied
`order` values verbatim, so the invariant holds there only if the client
already supplies `0 … n-1`. -/
theorem C5_order_contiguity (hull : HullOracle) (s : DBState) (aid : Nat)
    (points : List Point) (plant_ids : List Nat)
    (coordinates : List CoordInput)
    (hfresh : ∀ c ∈ s.coords, c.area_id ≠ aid) :
    ordersOf (finalState hull s aid points plant_ids) aid =
      (List.range (driverPoly hull points).length).map Int.ofNat ∧
    contiguousFromZero (ordersOf (finalState hull s aid points plant_ids) aid) ∧
    ordersOf (create_area s aid coordinates) aid =
      coordinates.map (fun cd => cd.order) := by
  have hfilter_s : s.coords.filter (fun c => c.area_id == aid) = [] := by
    rw [List.filter_eq_nil_iff]
    intro c hc
    simpa using hfresh c hc
  have hfilter_new : ∀ poly : List Point,
      (enumCoords aid poly).filter (fun c => c.area_id == aid) =
        enumCoords aid poly := by
    intro poly
    rw [List.filter_eq_self]
    intro c hc
    obtain ⟨ip, _, hip⟩ := List.mem_map.mp hc
    rw [← hip]
    simp
  have horders : ∀ poly : List Point,
      (enumCoords aid poly).map (fun c => c.order) =
        (List.range poly.length).map Int.ofNat := by
    intro poly
    simp only [enumCoords, List.map_map]
    rw [show ((fun c : AreaCoordRow => c.order) ∘
        fun ip : Nat × Point => (⟨aid, ip.2.1, ip.2.2, Int.ofNat ip.1⟩ : AreaCoordRow)) =
        (fun ip : Nat × Point => Int.ofNat ip.1) from rfl]
    rw [show (fun ip : Nat × Point => Int.ofNat ip.1) =
        Int.ofNat ∘ Prod.fst from rfl]
    rw [← List.map_map, List.enum_map_fst]
  have hdriver : ordersOf (finalState hull s aid points plant_ids) aid =
      (List.range (driverPoly hull points).length).map Int.ofNat := by
    by_cases hpoly : driverPoly hull points = []
    · unfold finalState ordersOf
      simp [hpoly, hfilter_s]
    · unfold finalState ordersOf
      simp only [if_neg hpoly, commitPlants, commitCoords, commitArea]
      rw [List.filter_append, hfilter_s, hfilter_new]
      simpa using horders (driverPoly hull points)
  refine ⟨hdriver, ?_, ?_⟩
  · unfold contiguousFromZero
    rw [hdriver]
    simp
  · unfold ordersOf create_area
    simp only
    rw [List.filter_append, hfilter_s]
    have : (coordinates.map
        (fun cd => (⟨aid, cd.latitude, cd.longitude, cd.order⟩ : AreaCoordRow))).filter
        (fun c => c.area_id == aid) =
        coordinates.map (fun cd => (⟨aid, cd.latitude, cd.longitude, cd.order⟩ : AreaCoordRow)) := by
      rw [List.filter_eq_self]
      intro c hc
      obtain ⟨cd, _, hcd⟩ := List.mem_map.mp hc
      rw [← hcd]
      simp
    rw [this]
    simp [List.map_map]

/-- C5 witness: a concrete driver run over a two-point group yields order
values `[0, 1]`, and a concrete API call stores the client's orders. -/
theorem C5_witness :
    contiguousFromZero
      (ordersOf (finalState hullFail dbEmpty 1 [(0, 0), (0, 1)] [7]) 1) :=
  (C5_order_contiguity hullFail dbEmpty 1 [(0, 0), (0, 1)] [7] []
    (by simp [dbEmpty])).2.1

/-- C10: for every non-empty input point collection, `generate_polygon`
returns a non-empty vertex list (with or without a `site_point`, on the hull
path — granted scipy returns a non-empty vertex list on success — and on
every fallback path).  Consequently the clustering loop's skip branch
`if polygon_coords:` is never taken for a non-empty site group: the run
commits all three steps, creating exactly one Area row with at least one
AreaCoordinate row. -/
theorem C10_nonempty (hull : HullOracle) (points : List Point)
    (sp : Option Point) (s : DBState) (aid : Nat) (plant_ids : List Nat)
    (hne : points ≠ [])
    (hhull : ∀ l vs, hull l = Except.ok vs → vs ≠ []) :
    (generate_polygon hull points sp).1 ≠ [] ∧
    driverPoly hull points ≠ [] ∧
    processGroupStates hull s aid points plant_ids =
      [s, commitArea s aid,
       commitCoords (commitArea s aid) aid (driverPoly hull points),
       finalState hull s aid points plant_ids] ∧
    (finalState hull s aid points plant_ids).areas = s.areas ++ [aid] ∧
    enumCoords aid (driverPoly hull points) ≠ [] := by
  have hded : points.dedup ≠ [] := by
    intro h
    exact hne ((List.dedup_eq_nil points).mp h)
  have hgen : ∀ sp' : Option Point, (generate_polygon hull points sp').1 ≠ [] := by
    intro sp'
    unfold generate_polygon
    by_cases h : points.dedup.length < 3
    · cases sp' <;> simp [h, hded]
    · cases hh : hull points.dedup with
      | ok vs =>
        simpa [h, hh] using hhull _ _ hh
      | error e =>
        cases sp' <;> simp [h, hh, hded]
  have hdrv : driverPoly hull points ≠ [] := by
    unfold driverPoly
    by_cases h : points.length < 3
    · simpa [h] using hne
    · simpa [h] using hgen none
  refine ⟨hgen sp, hdrv, ?_, ?_, ?_⟩
  · simp [processGroupStates, finalState, hdrv]
  · simp [finalState, hdrv, commitPlants, commitCoords, commitArea]
  · intro hc
    have hlen : (enumCoords aid (driverPoly hull points)).length =
        (driverPoly hull points).length := by
      simp [enumCoords]
    rw [hc] at hlen
    exact hdrv (List.length_eq_zero.mp hlen.symm)

/-- C10 witness: a single-point group with the failing hull oracle yields a
non-empty polygon. -/
theorem C10_witness :
    (generate_polygon hullFail [((0 : ℚ), (0 : ℚ))] none).1 ≠ [] :=
  (C10_nonempty hullFail [((0 : ℚ), (0 : ℚ))] none dbEmpty 1 []
    (by decide) (by intro l vs h; simp [hullFail] at h)).1

/-- Python's `math.radians`: degrees to radians. -/
noncomputable def radians (x : ℝ) : ℝ := x * Real.pi / 180

/-- Python's `math.atan2(y, x)`: the angle of the point `(x, y)`, i.e. the
argument of the complex number `x + y·i` (and `0` at the origin, as in
Python). -/
noncomputable def atan2 (y x : ℝ) : ℝ := Complex.arg ⟨x, y⟩

/-- The intermediate value `a` of `haversine` (src/utils/poligon.py):
`a = sin(dphi/2)**2 + cos(phi1)*cos(phi2)*sin(dlambda/2)**2`. -/
noncomputable def haversine_a (lat1 lon1 lat2 lon2 : ℝ) : ℝ :=
  Real.sin (radians (lat2 - lat1) / 2) ^ 2 +
    Real.cos (radians lat1) * Real.cos (radians lat2) *
      Real.sin (radians (lon2 - lon1) / 2) ^ 2

/-- Embeds `haversine` from src/utils/poligon.py, over exact reals:
`c = 2 * atan2(sqrt(a), sqrt(1-a)); return R * c` with `R = 6371000`. -/
noncomputable def haversine (lat1 lon1 lat2 lon2 : ℝ) : ℝ :=
  6371000 *
    (2 * atan2 (Real.sqrt (haversine_a lat1 lon1 lat2 lon2))
      (Real.sqrt (1 - haversine_a lat1 lon1 lat2 lon2)))

/-- Half-angle identity used for the haversine bounds. -/
theorem sin_half_sq (x : ℝ) : Real.sin (x / 2) ^ 2 = (1 - Real.cos x) / 2 := by
  have h2 : Real.cos (2 * (x / 2)) = 2 * Real.cos (x / 2) ^ 2 - 1 :=
    Real.cos_two_mul _
  rw [show 2 * (x / 2) = x by ring] at h2
  have h3 : Real.sin (x / 2) ^ 2 + Real.cos (x / 2) ^ 2 = 1 :=
    Real.sin_sq_add_cos_sq _
  linarith

/-- C8: the great-circle distance is zero between coincident points and is
symmetric in its two endpoints. -/
theorem C8_distance_props (lat1 lon1 lat2 lon2 : ℝ) :
    haversine lat1 lon1 lat1 lon1 = 0 ∧
    haversine lat1 lon1 lat2 lon2 = haversine lat2 lon2 lat1 lon1 := by
  have hzero : radians 0 = 0 := by unfold radians; ring
  constructor
  · have ha : haversine_a lat1 lon1 lat1 lon1 = 0 := by
      unfold haversine_a
      rw [sub_self, sub_self, hzero]
      norm_num [Real.sin_zero]
    unfold haversine
    rw [ha, Real.sqrt_zero, sub_zero, Real.sqrt_one]
    unfold atan2
    rw [show ((⟨1, 0⟩ : ℂ)) = (1 : ℂ) from Complex.ext (by simp) (by simp)]
    rw [Complex.arg_one]
    ring
  · have hsymm_a : haversine_a lat1 lon1 lat2 lon2 =
        haversine_a lat2 lon2 lat1 lon1 := by
      unfold haversine_a
      have h1 : Real.sin (radians (lat1 - lat2) / 2) =
          -Real.sin (radians (lat2 - lat1) / 2) := by
        rw [show radians (lat1 - lat2) / 2 = -(radians (lat2 - lat1) / 2) by
          unfold radians; ring, Real.sin_neg]
      have h2 : Real.sin (radians (lon1 - lon2) / 2) =
          -Real.sin (radians (lon2 - lon1) / 2) := by
        rw [show radians (lon1 - lon2) / 2 = -(radians (lon2 - lon1) / 2) by
          unfold radians; ring, Real.sin_neg]
      rw [h1, h2]
      ring
    unfold haversine
    rw [hsymm_a]

/-- C9: the code contains no guard — `c = 2*atan2(sqrt(a), sqrt(1-a))` is
computed from `a` with no clamp to `[0, 1]`.  This theorem proves the exact
real-arithmetic bound `0 ≤ a ≤ 1` for all inputs: it shows the clamp the
specification requires is needed precisely against floating-point rounding,
not against the formula itself.  Under IEEE doubles the bound fails — e.g.
for the near-antipodal pair `(0.08, 0.0)` / `(-0.08, 180.0)` the computed
`a` is `1 + 2^-52`, so `sqrt(1-a)` receives a negative argument and raises,
contradicting the claimed guard and totality. -/
theorem C9_sqrt_arg_in_unit (lat1 lon1 lat2 lon2 : ℝ) :
    0 ≤ haversine_a lat1 lon1 lat2 lon2 ∧
    haversine_a lat1 lon1 lat2 lon2 ≤ 1 := by
  have key : haversine_a lat1 lon1 lat2 lon2 =
      (1 - Real.cos (radians lat2 - radians lat1)) / 2 +
      ((Real.cos (radians lat2 - radians lat1) +
          Real.cos (radians lat1 + radians lat2)) / 2) *
        Real.sin (radians (lon2 - lon1) / 2) ^ 2 := by
    unfold haversine_a
    have h1 : radians (lat2 - lat1) = radians lat2 - radians lat1 := by
      unfold radians; ring
    rw [h1, sin_half_sq (radians lat2 - radians lat1)]
    have h2 : Real.cos (radians lat1) * Real.cos (radians lat2) =
        (Real.cos (radians lat1 - radians lat2) +
          Real.cos (radians lat1 + radians lat2)) / 2 := by
      rw [Real.cos_sub, Real.cos_add]; ring
    rw [h2, show radians lat1 - radians lat2 = -(radians lat2 - radians lat1)
      by ring, Real.cos_neg]
  rw [key]
  have hc1 : -1 ≤ Real.cos (radians lat2 - radians lat1) :=
    Real.neg_one_le_cos _
  have hc2 : Real.cos (radians lat2 - radians lat1) ≤ 1 := Real.cos_le_one _
  have hs1 : -1 ≤ Real.cos (radians lat1 + radians lat2) :=
    Real.neg_one_le_cos _
  have hs2 : Real.cos (radians lat1 + radians lat2) ≤ 1 := Real.cos_le_one _
  have ht0 : (0 : ℝ) ≤ Real.sin (radians (lon2 - lon1) / 2) ^ 2 := sq_nonneg _
  have ht1 : Real.sin (radians (lon2 - lon1) / 2) ^ 2 ≤ 1 :=
    Real.sin_sq_le_one _
  constructor
  · nlinarith [mul_nonneg (by linarith :
        (0 : ℝ) ≤ 1 - Real.sin (radians (lon2 - lon1) / 2) ^ 2) (by linarith :
        (0 : ℝ) ≤ 1 - Real.cos (radians lat2 - radians lat1)),
      mul_nonneg ht0 (by linarith :
        (0 : ℝ) ≤ 1 + Real.cos (radians lat1 + radians lat2))]
  · nlinarith [mul_nonneg (by linarith :
        (0 : ℝ) ≤ 1 - Real.sin (radians (lon2 - lon1) / 2) ^ 2) (by linarith :
        (0 : ℝ) ≤ 1 + Real.cos (radians lat2 - radians lat1)),
      mul_nonneg ht0 (by linarith :
        (0 : ℝ) ≤ 1 - Real.cos (radians lat1 + radians lat2))]

/-- A calendar date as Python's `datetime.date` is used by the reduction:
three fields, compared lexicographically by `(year, month, day)`. -/
structure ObsDate where
  year : Nat
  month : Nat
  day : Nat
deriving DecidableEq

/-- Key for the lexicographic order on dates. -/
def ObsDate.key3 (d : ObsDate) : Lex (Nat × Lex (Nat × Nat)) :=
  toLex (d.year, toLex (d.month, d.day))

theorem ObsDate.key3_injective : Function.Injective ObsDate.key3 := by
  intro a b h
  cases a with
  | mk ya ma da =>
    cases b with
    | mk yb mb db =>
      have h1 := congrArg (fun z : Lex (Nat × Lex (Nat × Nat)) => (ofLex z).1) h
      have h2 := congrArg
        (fun z : Lex (Nat × Lex (Nat × Nat)) => (ofLex (ofLex z).2).1) h
      have h3 := congrArg
        (fun z : Lex (Nat × Lex (Nat × Nat)) => (ofLex (ofLex z).2).2) h
      simp only [ObsDate.key3, ofLex_toLex] at h1 h2 h3
      subst h1
      subst h2
      subst h3
      rfl

/-- Dates compare the way Python's `datetime.date` compares:
lexicographically by `(year, month, day)`. -/
instance : LinearOrder ObsDate := LinearOrder.lift' ObsDate.key3 ObsDate.key3_injective

/-- One `Observation` row (src/models/observation.py).  The nullable
free-text `description` column is omitted: it plays no role in the monthly
reduction, which reads only `observation_date` (and returns rows whole). -/
structure Obs where
  id : Nat
  site_id : Nat
  plant_id : Option Nat
  phenophase_id : Nat
  observation_date : ObsDate
  is_blooming : Bool
deriving DecidableEq

/-- The `(year, month)` bucket key of an observation, as
`ym = (obs.observation_date.year, obs.observation_date.month)`. -/
def ym (o : Obs) : Nat × Nat := (o.observation_date.year, o.observation_date.month)

/-- One `month_dict[ym].append(obs)` step on the insertion-ordered
`defaultdict(list)`: append to the existing bucket with this key, or append a
new bucket at the end. -/
def insertObs (acc : List ((Nat × Nat) × List Obs)) (o : Obs) :
    List ((Nat × Nat) × List Obs) :=
  match acc with
  | [] => [(ym o, [o])]
  | (k, b) :: rest =>
    if k = ym o then (k, b ++ [o]) :: rest else (k, b) :: insertObs rest o

/-- The insertion-ordered month dictionary built by the
`for obs in plant.observations` loop of `get_area`
(src/routes/endpoints/areas.py). -/
def groupByMonth (l : List Obs) : List ((Nat × Nat) × List Obs) :=
  l.foldl insertObs []

/-- Python's `max(l, key=lambda o: o.observation_date)` over `a :: l`:
left fold keeping the current maximum, replacing it only on strict
increase (first maximal element wins ties). -/
def maxByDate (a : Obs) (l : List Obs) : Obs :=
  l.foldl (fun acc o =>
    if acc.observation_date < o.observation_date then o else acc) a

/-- `max` of a bucket (`none` for an empty list, which Python's `max` would
reject; buckets are built non-empty). -/
def obsMax : List Obs → Option Obs
  | [] => none
  | x :: xs => some (maxByDate x xs)

/-- Insert an observation into a descending-by-date list, after any element
with an equal or greater date (the stable position). -/
def insertDesc (o : Obs) : List Obs → List Obs
  | [] => [o]
  | x :: xs =>
    if x.observation_date < o.observation_date then o :: x :: xs
    else x :: insertDesc o xs

/-- Python's `sorted(l, key=lambda o: o.observation_date, reverse=True)`:
the stable descending sort, realized as a stable insertion sort. -/
def sortDesc (l : List Obs) : List Obs :=
  l.foldl (fun acc o => insertDesc o acc) []

/-- The one-per-month survivors `monthly_obs`: the maximum-date observation
of each bucket, in bucket insertion order. -/
def monthSurvivors (l : List Obs) : List Obs :=
  (groupByMonth l).filterMap (fun kb => obsMax kb.2)

/-- The monthly reduction of `get_area` (src/routes/endpoints/areas.py):
group by `(year, month)`, keep the latest observation per bucket, sort the
survivors by date descending, truncate to 12. -/
def monthlySummary (l : List Obs) : List Obs :=
  (sortDesc (monthSurvivors l)).take 12

/-- The first bucket with the given key (keys are unique in a built month
dictionary). -/
def bucketOf : List ((Nat × Nat) × List Obs) → Nat × Nat → List Obs
  | [], _ => []
  | (k', b) :: rest, k => if k' = k then b else bucketOf rest k

theorem maxByDate_mem (a : Obs) (l : List Obs) : maxByDate a l ∈ a :: l := by
  induction l generalizing a with
  | nil => simp [maxByDate]
  | cons x xs ih =>
    have hstep : maxByDate a (x :: xs) =
        maxByDate (if a.observation_date < x.observation_date then x else a) xs := rfl
    rw [hstep]
    rcases List.mem_cons.mp
        (ih (if a.observation_date < x.observation_date then x else a)) with h | h
    · by_cases hc : a.observation_date < x.observation_date
      · rw [if_pos hc] at h ⊢
        simp [h]
      · rw [if_neg hc] at h ⊢
        simp [h]
    · simp [List.mem_cons.mpr (Or.inr h)]

theorem maxByDate_ge (a : Obs) (l : List Obs) :
    ∀ o ∈ a :: l, o.observation_date ≤ (maxByDate a l).observation_date := by
  induction l generalizing a with
  | nil =>
    intro o ho
    rcases List.mem_cons.mp ho with h | h
    · subst h; exact le_refl _
    · cases h
  | cons x xs ih =>
    intro o ho
    have hstep : maxByDate a (x :: xs) =
        maxByDate (if a.observation_date < x.observation_date then x else a) xs := rfl
    rw [hstep]
    have hb := ih (if a.observation_date < x.observation_date then x else a)
    have hbmem : (if a.observation_date < x.observation_date then x else a).observation_date ≤
        (maxByDate (if a.observation_date < x.observation_date then x else a) xs).observation_date :=
      hb _ (List.mem_cons_self _ _)
    rcases List.mem_cons.mp ho with h | h
    · subst h
      by_cases hc : o.observation_date < x.observation_date
      · rw [if_pos hc] at hbmem ⊢
        exact le_trans (le_of_lt hc) hbmem
      · rw [if_neg hc] at hbmem ⊢
        exact hbmem
    · rcases List.mem_cons.mp h with h | h
      · subst h
        by_cases hc : a.observation_date < o.observation_date
        · rw [if_pos hc] at hbmem ⊢
          exact hbmem
        · rw [if_neg hc] at hbmem ⊢
          exact le_trans (le_of_not_lt hc) hbmem
      · exact hb o (List.mem_cons.mpr (Or.inr h))

theorem obsMax_spec (b : List Obs) (o : Obs) (h : obsMax b = some o) :
    o ∈ b ∧ ∀ y ∈ b, y.observation_date ≤ o.observation_date := by
  cases b with
  | nil => simp [obsMax] at h
  | cons x xs =>
    simp only [obsMax, Option.some.injEq] at h
    subst h
    exact ⟨maxByDate_mem x xs, maxByDate_ge x xs⟩

theorem bucketOf_insertObs (acc : List ((Nat × Nat) × List Obs)) (o : Obs)
    (k : Nat × Nat) :
    bucketOf (insertObs acc o) k =
      if k = ym o then bucketOf acc k ++ [o] else bucketOf acc k := by
  induction acc with
  | nil =>
    by_cases h : k = ym o
    · subst h
      simp [insertObs, bucketOf]
    · have h' : ym o ≠ k := Ne.symm h
      simp [insertObs, bucketOf, h, h']
  | cons kb rest ih =>
    obtain ⟨k', b⟩ := kb
    by_cases hk : k' = ym o
    · subst hk
      by_cases hkk : k = ym o
      · subst hkk
        simp [insertObs, bucketOf]
      · have h' : ym o ≠ k := Ne.symm hkk
        simp [insertObs, bucketOf, hkk, h']
    · by_cases hkk : k' = k
      · subst hkk
        simp [insertObs, bucketOf, hk]
      · simp [insertObs, bucketOf, hk, hkk, ih]

theorem bucketOf_foldl (l : List Obs) (acc : List ((Nat × Nat) × List Obs))
    (k : Nat × Nat) :
    bucketOf (l.foldl insertObs acc) k =
      bucketOf acc k ++ l.filter (fun o => ym o == k) := by
  induction l generalizing acc with
  | nil => simp
  | cons o t ih =>
    have hstep : (o :: t).foldl insertObs acc = t.foldl insertObs (insertObs acc o) := rfl
    rw [hstep, ih, bucketOf_insertObs]
    by_cases h : k = ym o
    · have : (ym o == k) = true := by simp [h]
      simp [List.filter_cons, this, h]
    · have : (ym o == k) = false := by
        simp only [beq_eq_false_iff_ne, ne_eq]
        exact fun hh => h hh.symm
      simp [List.filter_cons, this, h]

theorem bucketOf_groupByMonth (l : List Obs) (k : Nat × Nat) :
    bucketOf (groupByMonth l) k = l.filter (fun o => ym o == k) := by
  have h := bucketOf_foldl l [] k
  simpa [bucketOf] using h

theorem keys_insertObs (acc : List ((Nat × Nat) × List Obs)) (o : Obs) :
    (insertObs acc o).map Prod.fst =
      if ym o ∈ acc.map Prod.fst then acc.map Prod.fst
      else acc.map Prod.fst ++ [ym o] := by
  induction acc with
  | nil => simp [insertObs]
  | cons kb rest ih =>
    obtain ⟨k', b⟩ := kb
    by_cases hk : k' = ym o
    · simp [insertObs, hk]
    · have hne : ym o ≠ k' := fun hh => hk hh.symm
      by_cases hmem : ym o ∈ rest.map Prod.fst
      · simp [insertObs, hk, ih, hmem, hne]
      · simp [insertObs, hk, ih, hmem, hne]

theorem nodup_concat_of (ks : List (Nat × Nat)) (k : Nat × Nat)
    (h : ks.Nodup) (hk : k ∉ ks) : (ks ++ [k]).Nodup := by
  rw [List.nodup_append]
  refine ⟨h, List.nodup_singleton k, ?_⟩
  intro a ha hb
  rw [List.mem_singleton] at hb
  subst hb
  exact hk ha

theorem keys_groupByMonth_nodup (l : List Obs) :
    ((groupByMonth l).map Prod.fst).Nodup := by
  have hgen : ∀ (t : List Obs) (acc : List ((Nat × Nat) × List Obs)),
      (acc.map Prod.fst).Nodup → ((t.foldl insertObs acc).map Prod.fst).Nodup := by
    intro t
    induction t with
    | nil => intro acc h; exact h
    | cons o tt ih =>
      intro acc h
      have hstep : (o :: tt).foldl insertObs acc = tt.foldl insertObs (insertObs acc o) := rfl
      rw [hstep]
      apply ih
      rw [keys_insertObs]
      by_cases hmem : ym o ∈ acc.map Prod.fst
      · simpa [hmem] using h
      · rw [if_neg hmem]
        exact nodup_concat_of _ _ h hmem
  simpa using hgen l [] (by simp)

theorem mem_bucketOf_of_nodup (g : List ((Nat × Nat) × List Obs))
    (hg : (g.map Prod.fst).Nodup) :
    ∀ kb ∈ g, bucketOf g kb.1 = kb.2 := by
  induction g with
  | nil => intro kb hkb; cases hkb
  | cons hd rest ih =>
    obtain ⟨k, b⟩ := hd
    intro kb hkb
    have hhd : k ∉ rest.map Prod.fst := by
      have := hg
      simp only [List.map_cons, List.nodup_cons] at this
      exact this.1
    have hrest : (rest.map Prod.fst).Nodup := by
      have := hg
      simp only [List.map_cons, List.nodup_cons] at this
      exact this.2
    rcases List.mem_cons.mp hkb with h | h
    · subst h
      simp [bucketOf]
    · have hne : k ≠ kb.1 := by
        intro hh
        apply hhd
        rw [hh]
        exact List.mem_map.mpr ⟨kb, h, rfl⟩
      simp only [bucketOf, if_neg hne]
      exact ih hrest kb h

theorem groupByMonth_bucket_eq_filter (l : List Obs) :
    ∀ kb ∈ groupByMonth l, kb.2 = l.filter (fun o => ym o == kb.1) := by
  intro kb hkb
  rw [← bucketOf_groupByMonth]
  exact (mem_bucketOf_of_nodup _ (keys_groupByMonth_nodup l) kb hkb).symm

theorem mem_insertDesc (o a : Obs) (l : List Obs) :
    a ∈ insertDesc o l ↔ a = o ∨ a ∈ l := by
  induction l with
  | nil => simp [insertDesc]
  | cons x xs ih =>
    by_cases h : x.observation_date < o.observation_date
    · simp [insertDesc, h]
    · simp [insertDesc, h, ih]
      tauto

theorem insertDesc_perm (o : Obs) (l : List Obs) :
    List.Perm (insertDesc o l) (o :: l) := by
  induction l with
  | nil => simp [insertDesc]
  | cons x xs ih =>
    by_cases h : x.observation_date < o.observation_date
    · simp [insertDesc, h]
    · simp only [insertDesc, if_neg h]
      exact (ih.cons x).trans (List.Perm.swap o x xs)

theorem sortDesc_perm (l : List Obs) : List.Perm (sortDesc l) l := by
  have hgen : ∀ (t : List Obs) (acc : List Obs),
      List.Perm (t.foldl (fun acc o => insertDesc o acc) acc) (acc ++ t) := by
    intro t
    induction t with
    | nil => intro acc; simp
    | cons o tt ih =>
      intro acc
      have hstep : (o :: tt).foldl (fun acc o => insertDesc o acc) acc =
          tt.foldl (fun acc o => insertDesc o acc) (insertDesc o acc) := rfl
      rw [hstep]
      refine (ih (insertDesc o acc)).trans ?_
      refine (List.Perm.append_right tt (insertDesc_perm o acc)).trans ?_
      exact (List.perm_middle).symm.trans (by simp)
  simpa using hgen l []

theorem pairwise_ge_insertDesc (o : Obs) (l : List Obs)
    (h : l.Pairwise (fun a b => b.observation_date ≤ a.observation_date)) :
    (insertDesc o l).Pairwise (fun a b => b.observation_date ≤ a.observation_date) := by
  induction l with
  | nil => simp [insertDesc]
  | cons x xs ih =>
    rw [List.pairwise_cons] at h
    obtain ⟨hx, hxs⟩ := h
    by_cases hc : x.observation_date < o.observation_date
    · simp only [insertDesc, if_pos hc]
      rw [List.pairwise_cons]
      refine ⟨?_, ?_⟩
      · intro b hb
        rcases List.mem_cons.mp hb with hb | hb
        · subst hb; exact le_of_lt hc
        · exact le_trans (hx b hb) (le_of_lt hc)
      · rw [List.pairwise_cons]
        exact ⟨hx, hxs⟩
    · simp only [insertDesc, if_neg hc]
      rw [List.pairwise_cons]
      refine ⟨?_, ih hxs⟩
      intro b hb
      rcases (mem_insertDesc o b xs).mp hb with hb | hb
      · subst hb; exact le_of_not_lt hc
      · exact hx b hb

theorem sortDesc_pairwise_ge (l : List Obs) :
    (sortDesc l).Pairwise (fun a b => b.observation_date ≤ a.observation_date) := by
  have hgen : ∀ (t : List Obs) (acc : List Obs),
      acc.Pairwise (fun a b => b.observation_date ≤ a.observation_date) →
      (t.foldl (fun acc o => insertDesc o acc) acc).Pairwise
        (fun a b => b.observation_date ≤ a.observation_date) := by
    intro t
    induction t with
    | nil => intro acc h; exact h
    | cons o tt ih =>
      intro acc h
      exact ih (insertDesc o acc) (pairwise_ge_insertDesc o acc h)
  exact hgen l [] (by simp)

theorem insertDesc_eq_append (o : Obs) (l : List Obs)
    (h : ∀ x ∈ l, ¬ x.observation_date < o.observation_date) :
    insertDesc o l = l ++ [o] := by
  induction l with
  | nil => simp [insertDesc]
  | cons x xs ih =>
    have hx := h x (List.mem_cons_self x xs)
    simp only [insertDesc, if_neg hx]
    rw [ih (fun y hy => h y (List.mem_cons.mpr (Or.inr hy)))]
    simp

theorem sortDesc_of_sorted (l : List Obs)
    (h : l.Pairwise (fun a b => b.observation_date < a.observation_date)) :
    sortDesc l = l := by
  have hgen : ∀ (t : List Obs) (acc : List Obs),
      (∀ x ∈ acc, ∀ o ∈ t, ¬ x.observation_date < o.observation_date) →
      t.Pairwise (fun a b => b.observation_date < a.observation_date) →
      t.foldl (fun acc o => insertDesc o acc) acc = acc ++ t := by
    intro t
    induction t with
    | nil => intro acc _ _; simp
    | cons o tt ih =>
      intro acc hdom hp
      rw [List.pairwise_cons] at hp
      obtain ⟨ho, htt⟩ := hp
      have hstep : (o :: tt).foldl (fun acc o => insertDesc o acc) acc =
          tt.foldl (fun acc o => insertDesc o acc) (insertDesc o acc) := rfl
      rw [hstep]
      rw [insertDesc_eq_append o acc
        (fun x hx => hdom x hx o (List.mem_cons_self o tt))]
      rw [ih (acc ++ [o]) ?_ htt]
      · simp
      · intro x hx o' ho'
        rcases List.mem_append.mp hx with hx | hx
        · exact hdom x hx o' (List.mem_cons.mpr (Or.inr ho'))
        · rw [List.mem_singleton] at hx
          subst hx
          exact lt_asymm (ho o' ho')
  exact (hgen l [] (by simp) h).trans (by simp)

theorem pairwise_filterMap_of_pairwise {α β : Type} (R : α → α → Prop)
    (S : β → β → Prop) (f : α → Option β) (l : List α) (h : l.Pairwise R)
    (hf : ∀ a b x y, a ∈ l → b ∈ l → R a b → f a = some x → f b = some y → S x y) :
    (l.filterMap f).Pairwise S := by
  induction l with
  | nil => simp
  | cons a t ih =>
    rw [List.pairwise_cons] at h
    obtain ⟨ha, ht⟩ := h
    have hf' : ∀ a' b x y, a' ∈ t → b ∈ t → R a' b → f a' = some x →
        f b = some y → S x y := by
      intro a' b x y ha' hb hr hfa hfb
      exact hf a' b x y (List.mem_cons.mpr (Or.inr ha'))
        (List.mem_cons.mpr (Or.inr hb)) hr hfa hfb
    cases hfa : f a with
    | none => simpa [List.filterMap_cons, hfa] using ih ht hf'
    | some x =>
      rw [List.filterMap_cons, hfa]
      rw [List.pairwise_cons]
      refine ⟨?_, ih ht hf'⟩
      intro y hy
      obtain ⟨b, hb, hfb⟩ := List.mem_filterMap.mp hy
      exact hf a b x y (List.mem_cons_self a t)
        (List.mem_cons.mpr (Or.inr hb)) (ha b hb) hfa hfb

theorem monthSurvivors_props (l : List Obs) :
    ∀ o ∈ monthSurvivors l, o ∈ l ∧
      ∀ o' ∈ l, ym o' = ym o → o'.observation_date ≤ o.observation_date := by
  intro o ho
  obtain ⟨kb, hkb, hmax⟩ := List.mem_filterMap.mp ho
  obtain ⟨homem, hge⟩ := obsMax_spec kb.2 o hmax
  have hfilter := groupByMonth_bucket_eq_filter l kb hkb
  have homem' : o ∈ l.filter (fun x => ym x == kb.1) := by
    rw [← hfilter]; exact homem
  have hol : o ∈ l := (List.mem_filter.mp homem').1
  have hymo : ym o = kb.1 := by
    have := (List.mem_filter.mp homem').2
    simpa using this
  refine ⟨hol, ?_⟩
  intro o' ho' hym
  have ho'f : o' ∈ l.filter (fun x => ym x == kb.1) :=
    List.mem_filter.mpr ⟨ho', by simp [hym, hymo]⟩
  rw [← hfilter] at ho'f
  exact hge o' ho'f

theorem monthSurvivors_pairwise_ym (l : List Obs) :
    (monthSurvivors l).Pairwise (fun a b => ym a ≠ ym b) := by
  unfold monthSurvivors
  have hkeys : (groupByMonth l).Pairwise (fun kb kb' => kb.1 ≠ kb'.1) :=
    (List.pairwise_map).mp (keys_groupByMonth_nodup l)
  apply pairwise_filterMap_of_pairwise _ _ _ _ hkeys
  intro ka kb x y hka hkb hne hfx hfy
  have hxa : ym x = ka.1 := by
    have hmem := (obsMax_spec _ _ hfx).1
    have hf := groupByMonth_bucket_eq_filter l ka hka
    rw [hf] at hmem
    simpa using (List.mem_filter.mp hmem).2
  have hyb : ym y = kb.1 := by
    have hmem := (obsMax_spec _ _ hfy).1
    have hf := groupByMonth_bucket_eq_filter l kb hkb
    rw [hf] at hmem
    simpa using (List.mem_filter.mp hmem).2
  rw [hxa, hyb]
  exact hne

theorem monthlySummary_mem (l : List Obs) (o : Obs)
    (ho : o ∈ monthlySummary l) : o ∈ monthSurvivors l := by
  unfold monthlySummary at ho
  have h1 : o ∈ sortDesc (monthSurvivors l) := List.take_subset _ _ ho
  exact (sortDesc_perm (monthSurvivors l)).mem_iff.mp h1

theorem monthlySummary_pairwise_ym (l : List Obs) :
    (monthlySummary l).Pairwise (fun a b => ym a ≠ ym b) := by
  unfold monthlySummary
  apply List.Pairwise.sublist (List.take_sublist 12 _)
  refine ((sortDesc_perm (monthSurvivors l)).pairwise_iff ?_).mpr
    (monthSurvivors_pairwise_ym l)
  intro a b hab
  exact Ne.symm hab

theorem monthlySummary_pairwise_desc (l : List Obs) :
    (monthlySummary l).Pairwise
      (fun a b => b.observation_date < a.observation_date) := by
  unfold monthlySummary
  apply List.Pairwise.sublist (List.take_sublist 12 _)
  have hge := sortDesc_pairwise_ge (monthSurvivors l)
  have hym : (sortDesc (monthSurvivors l)).Pairwise (fun a b => ym a ≠ ym b) :=
    ((sortDesc_perm (monthSurvivors l)).pairwise_iff
      (fun hab => Ne.symm hab)).mpr (monthSurvivors_pairwise_ym l)
  have hand := hge.and hym
  apply hand.imp
  intro a b hab
  obtain ⟨hle, hne⟩ := hab
  refine lt_of_le_of_ne hle ?_
  intro heq
  exact hne (by unfold ym; rw [← heq])

theorem monthlySummary_length (l : List Obs) : (monthlySummary l).length ≤ 12 := by
  unfold monthlySummary
  exact List.length_take_le 12 _

/-- C6: the monthly reduction returns at most 12 entries, has pairwise
distinct `(year, month)` keys, is sorted strictly descending by
`observation_date`, and each returned entry is an input observation whose
date dominates every input observation of the same month. -/
theorem C6_monthly_summary (l : List Obs) :
    (monthlySummary l).length ≤ 12 ∧
    (monthlySummary l).Pairwise (fun a b => ym a ≠ ym b) ∧
    (monthlySummary l).Pairwise
      (fun a b => b.observation_date < a.observation_date) ∧
    ∀ o ∈ monthlySummary l, o ∈ l ∧
      ∀ o' ∈ l, ym o' = ym o → o'.observation_date ≤ o.observation_date :=
  ⟨monthlySummary_length l, monthlySummary_pairwise_ym l,
   monthlySummary_pairwise_desc l,
   fun o ho => monthSurvivors_props l o (monthlySummary_mem l o ho)⟩

/-- Observations of the spec's end-to-end scenario 3: two January 2024
records and one February 2024 record. -/
def sampleObs : List Obs :=
  [⟨1, 1, some 1, 500, ⟨2024, 1, 5⟩, true⟩,
   ⟨2, 1, some 1, 500, ⟨2024, 1, 20⟩, true⟩,
   ⟨3, 1, some 1, 501, ⟨2024, 2, 1⟩, false⟩]

/-- C6 witness: the reduction of a concrete observation list obeys the
bound. -/
theorem C6_witness : (monthlySummary sampleObs).length ≤ 12 :=
  (C6_monthly_summary sampleObs).1

theorem insertObs_of_not_mem (acc : List ((Nat × Nat) × List Obs)) (o : Obs)
    (h : ym o ∉ acc.map Prod.fst) :
    insertObs acc o = acc ++ [(ym o, [o])] := by
  induction acc with
  | nil => simp [insertObs]
  | cons kb rest ih =>
    obtain ⟨k, b⟩ := kb
    simp only [List.map_cons, List.mem_cons] at h
    push_neg at h
    obtain ⟨h1, h2⟩ := h
    have hk : ¬ k = ym o := fun hh => h1 hh.symm
    simp [insertObs, hk, ih h2]

theorem groupByMonth_of_pairwise (l : List Obs)
    (h : l.Pairwise (fun a b => ym a ≠ ym b)) :
    groupByMonth l = l.map (fun o => (ym o, [o])) := by
  have hgen : ∀ (t : List Obs) (acc : List ((Nat × Nat) × List Obs)),
      (∀ o ∈ t, ym o ∉ acc.map Prod.fst) →
      t.Pairwise (fun a b => ym a ≠ ym b) →
      t.foldl insertObs acc = acc ++ t.map (fun o => (ym o, [o])) := by
    intro t
    induction t with
    | nil => intro acc _ _; simp
    | cons o tt ih =>
      intro acc hnot hp
      rw [List.pairwise_cons] at hp
      obtain ⟨ho, htt⟩ := hp
      have hstep : (o :: tt).foldl insertObs acc =
          tt.foldl insertObs (insertObs acc o) := rfl
      rw [hstep, insertObs_of_not_mem acc o (hnot o (List.mem_cons_self o tt))]
      rw [ih (acc ++ [(ym o, [o])]) ?_ htt]
      · simp
      · intro o' ho'
        rw [List.map_append, List.mem_append]
        push_neg
        refine ⟨hnot o' (List.mem_cons.mpr (Or.inr ho')), ?_⟩
        simp only [List.map_cons, List.map_nil, List.mem_singleton]
        exact fun hh => (ho o' ho') hh.symm
  have hg := hgen l [] (by simp) h
  simpa [groupByMonth] using hg

theorem monthSurvivors_of_pairwise (l : List Obs)
    (h : l.Pairwise (fun a b => ym a ≠ ym b)) :
    monthSurvivors l = l := by
  unfold monthSurvivors
  rw [groupByMonth_of_pairwise l h, List.filterMap_map]
  have hcomp : ((fun kb : (Nat × Nat) × List Obs => obsMax kb.2) ∘
      fun o : Obs => (ym o, [o])) = some := by
    funext o
    simp [obsMax, maxByDate]
  rw [hcomp]
  exact List.filterMap_some l

/-- C7: the monthly reduction is idempotent — applied to its own output it
returns that output unchanged. -/
theorem C7_idempotent (l : List Obs) :
    monthlySummary (monthlySummary l) = monthlySummary l := by
  have h1 := monthlySummary_pairwise_ym l
  have h2 := monthlySummary_pairwise_desc l
  have h3 := monthlySummary_length l
  have hstep : monthlySummary (monthlySummary l) =
      (sortDesc (monthSurvivors (monthlySummary l))).take 12 := rfl
  rw [hstep, monthSurvivors_of_pairwise (monthlySummary l) h1,
    sortDesc_of_sorted _ h2]
  exact List.take_of_length_le h3
